import Mathlib

/-!
Verification of the Image Stack Alignment & Transform Pipeline of
`dl-animate` (files `animate/utils/img_proc.py`, `animate/utils/coregister.py`,
`animate/utils/animation.py`) against its natural-language specification.

Modelling conventions.
* Machine floats are modelled by exact rationals.  Where the IEEE-754
  special values (infinity, NaN) produced by numpy are semantically
  relevant (the `rescale_img` degenerate-range path divides by zero),
  pixel values are wrapped in `NFloat`, which adds `nan`, `inf`, `ninf`
  to the finite rationals and implements numpy's arithmetic on them.
* Images are lists: a frame is `List (List (List ℚ))`
  (rows × columns × channels); a 2-D channel slice used by the Fourier
  code is a function `Fin m → Fin n → ℂ`.
* Python's built-in `round` (round-half-to-even) is `pythonRound`;
  Python's slice semantics (negative index wrap-around and clamping)
  is `pySlice`.
* `numpy.astype` to a floating dtype is the identity in this exact
  model (no rounding is modelled).
-/

namespace Animate

/-- A numpy floating-point scalar: a finite rational, NaN, +inf or -inf. -/
inductive NFloat where
  | fin (q : ℚ)
  | nan
  | inf
  | ninf
deriving DecidableEq

namespace NFloat

/-- IEEE-754 multiplication as implemented by numpy: NaN is absorbing,
`0 * ±inf = NaN`, and infinities multiply by sign. -/
def nfMul : NFloat → NFloat → NFloat
  | fin a, fin b => fin (a * b)
  | nan, _ => nan
  | _, nan => nan
  | fin a, inf => if 0 < a then inf else if a < 0 then ninf else nan
  | inf, fin a => if 0 < a then inf else if a < 0 then ninf else nan
  | fin a, ninf => if 0 < a then ninf else if a < 0 then inf else nan
  | ninf, fin a => if 0 < a then ninf else if a < 0 then inf else nan
  | inf, inf => inf
  | inf, ninf => ninf
  | ninf, inf => ninf
  | ninf, ninf => inf

/-- IEEE-754 division as implemented by numpy scalars: division of a
nonzero finite value by zero yields a signed infinity, `0/0 = NaN`. -/
def nfDiv : NFloat → NFloat → NFloat
  | fin a, fin b =>
      if b ≠ 0 then fin (a / b)
      else if 0 < a then inf else if a < 0 then ninf else nan
  | nan, _ => nan
  | _, nan => nan
  | inf, fin b => if 0 ≤ b then inf else ninf
  | ninf, fin b => if 0 ≤ b then ninf else inf
  | fin _, inf => fin 0
  | fin _, ninf => fin 0
  | inf, inf => nan
  | inf, ninf => nan
  | ninf, inf => nan
  | ninf, ninf => nan

/-- numpy `maximum` against a finite bound: NaN propagates. -/
def nfMaxFin : NFloat → ℚ → NFloat
  | fin a, b => fin (max a b)
  | nan, _ => nan
  | inf, _ => inf
  | ninf, b => fin b

/-- numpy `minimum` against a finite bound: NaN propagates. -/
def nfMinFin : NFloat → ℚ → NFloat
  | fin a, b => fin (min a b)
  | nan, _ => nan
  | inf, b => fin b
  | ninf, _ => ninf

/-- numpy `clip(a, lo, hi) = minimum(maximum(a, lo), hi)`; NaN stays NaN. -/
def nfClip (a : NFloat) (lo hi : ℚ) : NFloat :=
  nfMinFin (nfMaxFin a lo) hi

/-- Whether a numpy scalar is a finite value lying inside `[lo, hi]`.
NaN and the infinities are not in any range. -/
def inRange (a : NFloat) (lo hi : ℚ) : Bool :=
  match a with
  | fin q => decide (lo ≤ q) && decide (q ≤ hi)
  | _ => false

/-- The rational carried by a finite numpy scalar (`0` for the
non-finite values); used to feed a frame of finite pixels back into a
second pipeline stage. -/
def toRat : NFloat → ℚ
  | fin q => q
  | _ => 0

end NFloat

/-- Clipping on plain rationals, `min hi (max q lo)`, used to state what
`rescale_img` computes on its non-degenerate path. -/
def clipQ (q lo hi : ℚ) : ℚ :=
  min hi (max q lo)

/-- Ascending sort of the pixel population, as numpy's percentile
routine performs internally.  (For a total order the sorted permutation
is unique, so the choice of sorting algorithm is irrelevant.) -/
def sortQ (xs : List ℚ) : List ℚ :=
  xs.insertionSort (· ≤ ·)

/-- The source of `numpy.nanpercentile(img, p)` restricted to frames of
finite pixels (on finite data `nanpercentile` coincides with
`percentile`): sort the values, take the fractional index
`h = p/100 * (n-1)`, and linearly interpolate between the floor and
ceiling positions (numpy's default `linear` interpolation). -/
def nanpercentile (xs : List ℚ) (p : ℚ) : ℚ :=
  let s := sortQ xs
  let n := s.length
  let h : ℚ := p / 100 * ((n : ℚ) - 1)
  let lo := s.getD (Int.toNat ⌊h⌋) 0
  let hi := s.getD (Int.toNat ⌈h⌉) 0
  lo + (h - (⌊h⌋ : ℚ)) * (hi - lo)

/-- Shallow embedding of `img_proc.rescale_img` on a frame of finite
pixels (the frame is flattened: the affine map is applied pixelwise, so
the row/column structure is irrelevant):

    vmin, vmax = np.nanpercentile(img, pmin), np.nanpercentile(img, pmax)
    img_rescale = ((img - vmin) * (1.0 / (vmax - vmin) * max_val)).astype(dtype)
    np.clip(img_rescale, min_val, max_val, out=img_rescale)

The scalar factor `1.0 / (vmax - vmin) * max_val` is computed first in
numpy float arithmetic (a zero range gives `inf`), then multiplied onto
the finite values `img - vmin`; `astype` to a float dtype is the
identity here.  Note the source multiplies by `max_val` alone and adds
no `min_val` offset. -/
def rescale_img (img : List ℚ) (min_val max_val : ℚ) (pmin pmax : ℚ) :
    List NFloat :=
  let vmin := nanpercentile img pmin
  let vmax := nanpercentile img pmax
  let scale := NFloat.nfMul (NFloat.nfDiv (.fin 1) (.fin (vmax - vmin))) (.fin max_val)
  img.map (fun x => NFloat.nfClip (NFloat.nfMul (.fin (x - vmin)) scale) min_val max_val)

/-- Modelled from the spec (§4.4), for comparison with the source: the
spec's affine rescale
`out = (in - vmin) * (max_val - min_val) / (vmax - vmin) + min_val`,
clipped to `[min_val, max_val]`. -/
def rescale_img_specFormula (img : List ℚ) (min_val max_val : ℚ) (pmin pmax : ℚ) :
    List ℚ :=
  let vmin := nanpercentile img pmin
  let vmax := nanpercentile img pmax
  img.map (fun x =>
    clipQ ((x - vmin) * (max_val - min_val) / (vmax - vmin) + min_val) min_val max_val)

/-! ### Python `round` and slice semantics, and `img_proc.crop_img` -/

/-- Python's built-in `round` to an integer: round half to even. -/
def pythonRound (q : ℚ) : ℤ :=
  if q - ⌊q⌋ < 1/2 then ⌊q⌋
  else if 1/2 < q - ⌊q⌋ then ⌊q⌋ + 1
  else if 2 ∣ ⌊q⌋ then ⌊q⌋ else ⌊q⌋ + 1

/-- Python list/array slice `xs[s:e]` with step 1: negative indices
count from the end, and both endpoints are clamped to `[0, len xs]`. -/
def pySlice {α : Type _} (s e : ℤ) (xs : List α) : List α :=
  let n : ℤ := xs.length
  let s' : ℤ := if s < 0 then max 0 (n + s) else min s n
  let e' : ℤ := if e < 0 then max 0 (n + e) else min e n
  (xs.drop s'.toNat).take (e' - s').toNat

/-- Shallow embedding of `img_proc.crop_img` for `aspect_ratio = [arW, arH]`
(a frame is a list of rows, each row a list of column pixels):

    ratio = float(aspect_ratio[1]) / float(aspect_ratio[0])
    old_height = img.shape[0]
    new_height = old_height * ratio
    start = round((old_height - new_height) / 2.0)
    end = round(start + new_height)
    img_crop = img[start:end, :, :]

`round` is Python's built-in (half-to-even), and the slice follows
Python semantics (`start` may be negative when `new_height` exceeds
`old_height`). -/
def crop_img (img : List (List (List ℚ))) (arW arH : ℚ) : List (List (List ℚ)) :=
  let r := arH / arW
  let old_height : ℚ := (img.length : ℚ)
  let new_height := old_height * r
  let start := pythonRound ((old_height - new_height) / 2)
  let stop := pythonRound ((start : ℚ) + new_height)
  pySlice start stop img

/-- The crop guard of `animation.transform_scenes`: the crop is applied
only when the stack's `rows/cols` differs from the target `arH/arW`:

    new_ratio = float(aspect_ratio[1]) / float(aspect_ratio[0])
    old_ratio = img_stack.shape[1] / img_stack.shape[2]
    if old_ratio != new_ratio: do_crop = True -/
def do_crop (rows cols : ℕ) (arW arH : ℚ) : Bool :=
  decide (¬ ((rows : ℚ) / (cols : ℚ) = arH / arW))

/-- The per-frame crop step of `transform_scenes`: `crop_img` if the
guard fires, otherwise the frame passes through unchanged. -/
def cropStage (rows cols : ℕ) (arW arH : ℚ) (img : List (List (List ℚ))) :
    List (List (List ℚ)) :=
  if do_crop rows cols arW arH then crop_img img arW arH else img

/-! ### The Colorizer step of `animation.transform_scenes` -/

/-- Shallow embedding of the colorize branch of `transform_scenes`,
taken on single-channel frames (`img.shape[-1] == 1`):

    tmp_img = cmap(tmp_img.squeeze())[:, :, :-1]

`numpy.squeeze` drops EVERY singleton axis, not only the channel axis.
When the frame also has a singleton row or column axis the squeezed
scalar field has fewer than 2 dimensions, the colormap output fewer
than 3, and the `[:, :, :-1]` slice raises (IndexError, or TypeError on
the 1×1×1 case where the colormap returns a plain tuple) — modelled as
`none`.  Otherwise squeeze removes exactly the channel axis, the
colormap maps each scalar pixel to its list of color components, and
the trailing `[:-1]` slice removes the last component of every pixel. -/
def colorize (cmap : ℚ → List ℚ) (img : List (List (List ℚ))) :
    Option (List (List (List ℚ))) :=
  if img.length = 1 ∨ (img.headD []).length = 1 then none
  else some (img.map (fun row => row.map (fun px => pySlice 0 (-1) (cmap (px.headD 0)))))

/-! ### The discrete Fourier transform machinery of `coregister.py`

`coregister.shift_stack` works per frame and per channel on 2-D slices:
it computes the 2-D FFT (unless the caller already passes spectra),
multiplies by the linear phase ramp of `scipy.ndimage.fourier.fourier_shift`,
inverse-transforms and keeps the real part.  The 2-D transforms are the
separable double sums computed by `numpy.fft.fft2` / `ifft2` (the
forward transform is unnormalized, the inverse carries `1/(m*n)`). -/

/-- The unit phase factor `exp(2πi a / n)`. -/
noncomputable def eunit (n : ℕ) (a : ℤ) : ℂ :=
  Complex.exp (2 * Real.pi * Complex.I * a / n)

/-- One-dimensional unnormalized forward DFT, numpy's
`X_k = Σ_j x_j · exp(-2πi·k·j/n)`. -/
noncomputable def dft1 {n : ℕ} (x : Fin n → ℂ) : Fin n → ℂ :=
  fun k => ∑ j, x j * eunit n (-((k.1 : ℤ) * (j.1 : ℤ)))

/-- One-dimensional inverse DFT with numpy's `1/n` normalization. -/
noncomputable def idft1 {n : ℕ} (y : Fin n → ℂ) : Fin n → ℂ :=
  fun j => (∑ k, y k * eunit n ((k.1 : ℤ) * (j.1 : ℤ))) / (n : ℂ)

/-- `numpy.fft.fft2`: the separable 2-D DFT (1-D transforms along both
axes; as a closed form, the standard double sum). -/
noncomputable def fft2 {m n : ℕ} (x : Fin m → Fin n → ℂ) : Fin m → Fin n → ℂ :=
  fun u v => dft1 (fun j => dft1 (x j) v) u

/-- `numpy.fft.ifft2`: the separable 2-D inverse DFT with `1/(m*n)`. -/
noncomputable def ifft2 {m n : ℕ} (y : Fin m → Fin n → ℂ) : Fin m → Fin n → ℂ :=
  fun j k => idft1 (fun u => idft1 (y u) k) j

/-- `numpy.fft.fftfreq(n)[k]` (in cycles per sample): `k/n` for the
first `(n+1)/2` indices, `(k-n)/n` for the rest. -/
def fftfreq (n : ℕ) (k : Fin n) : ℚ :=
  if k.1 < (n + 1) / 2 then (k.1 : ℚ) / (n : ℚ) else ((k.1 : ℚ) - (n : ℚ)) / (n : ℚ)

/-- `scipy.ndimage.fourier.fourier_shift` on a 2-D spectrum: multiply
by the linear phase ramp `exp(-2πi·(s₀·f_u + s₁·f_v))` where `f_u, f_v`
are the fft frequencies of the two axes. -/
noncomputable def fourierShift {m n : ℕ} (y : Fin m → Fin n → ℂ) (s : ℚ × ℚ) :
    Fin m → Fin n → ℂ :=
  fun u v =>
    y u v * Complex.exp (-(2 * Real.pi * Complex.I) *
      (((s.1 * fftfreq m u : ℚ) : ℝ) + ((s.2 * fftfreq n v : ℚ) : ℝ)))

/-! ### `coregister.shift_stack` -/

/-- The error kinds relevant to `shift_stack`: the `IndexError` Python
raises on an out-of-range `shifts[frame]`, the `ValueError` raised on an
unrecognized `space` string, and the `ShiftError` named by the spec
(which the source never defines or raises). -/
inductive PyErr where
  | indexError
  | valueError
  | shiftError
deriving DecidableEq

/-- Python's `str.lower()` for the `space.lower()` dispatch. -/
def strLower (s : String) : String :=
  ⟨s.data.map Char.toLower⟩

/-- The body of the `shift_stack` double loop for one frame: for every
channel, phase-shift the 2-D spectrum and keep the real part of the
inverse transform,

    shifted_stack[frame, :, :, layer] =
        np.real(ifft2(fourier_shift(fft_stack[frame, :, :, layer], shift))) -/
noncomputable def shiftOne {m n c : ℕ} (fr : Fin m → Fin n → Fin c → ℂ) (s : ℚ × ℚ) :
    Fin m → Fin n → Fin c → ℝ :=
  fun i j l => (ifft2 (fourierShift (fun a b => fr a b l) s) i j).re

/-- The `for frame in range(num_frames)` loop of `shift_stack`: frame
`f` reads `shifts[f]`; the first frame index beyond the length of
`shifts` raises `IndexError` (extra trailing shifts are ignored). -/
noncomputable def shiftLoop {m n c : ℕ} :
    List (Fin m → Fin n → Fin c → ℂ) → List (ℚ × ℚ) →
      Except PyErr (List (Fin m → Fin n → Fin c → ℝ))
  | [], _ => .ok []
  | _ :: _, [] => .error .indexError
  | fr :: rest, s :: ss => (shiftLoop rest ss).map (fun tail => shiftOne fr s :: tail)

/-- Shallow embedding of `coregister.shift_stack`.  A stack is a list of
frames (`Fin m → Fin n → Fin c → ℂ`; real-valued stacks are embedded with
zero imaginary parts).  With `space = "real"` the stack is cast to the
working float dtype (the real part) and FFT'd per frame and channel;
with `space = "fourier"` the input is taken as spectra; any other string
raises `ValueError`.  Then every frame is shifted by its entry of
`shifts`. -/
noncomputable def shift_stack {m n c : ℕ} (stack : List (Fin m → Fin n → Fin c → ℂ))
    (shifts : List (ℚ × ℚ)) (space : String) :
    Except PyErr (List (Fin m → Fin n → Fin c → ℝ)) :=
  if strLower space = "real" then
    shiftLoop (stack.map (fun fr => fun i j l => fft2 (fun a b => ((fr a b l).re : ℂ)) i j)) shifts
  else if strLower space = "fourier" then
    shiftLoop stack shifts
  else .error .valueError

/-- Embeds a real-valued stack frame into the complex frames consumed by
`shift_stack`. -/
def toCFrame {m n c : ℕ} (x : Fin m → Fin n → Fin c → ℝ) : Fin m → Fin n → Fin c → ℂ :=
  fun i j l => ((x i j l : ℝ) : ℂ)

/-! ### `coregister.coregister_stack`: per-channel shifts and their
median aggregation -/

/-- `numpy.median` of a 1-D population: sort ascending; the middle
element for odd length, the mean of the two middle elements for even
length. -/
def npMedian (xs : List ℚ) : ℚ :=
  let s := sortQ xs
  let n := s.length
  if n % 2 = 1 then s.getD (n / 2) 0
  else (s.getD (n / 2 - 1) 0 + s.getD (n / 2) 0) / 2

/-- The per-(frame, channel) shift array built by `coregister_stack`:
initialized to zeros, the loop skips `frame == base_frame` and fills
every other entry with the result of `skimage.feature.register_translation`
on the cached spectra of the base frame's and that frame's channel slice.
`register_translation` is an external collaborator, taken as a parameter. -/
noncomputable def computeShifts {F m n C : ℕ} (stack : Fin F → Fin m → Fin n → Fin C → ℝ)
    (base : Fin F)
    (register : (Fin m → Fin n → ℂ) → (Fin m → Fin n → ℂ) → ℚ × ℚ) :
    Fin F → Fin C → ℚ × ℚ :=
  fun f c =>
    if f = base then (0, 0)
    else register (fft2 (fun i j => ((stack base i j c : ℝ) : ℂ)))
      (fft2 (fun i j => ((stack f i j c : ℝ) : ℂ)))

/-- `averaged_shifts = np.median(shifts, axis=1)`: the median over the
channel axis, taken componentwise on the 2-vectors. -/
def aggregateShifts {F C : ℕ} (S : Fin F → Fin C → ℚ × ℚ) : Fin F → ℚ × ℚ :=
  fun f =>
    (npMedian (List.ofFn fun c => (S f c).1), npMedian (List.ofFn fun c => (S f c).2))

/-- Modelled from the spec (§4.2), for comparison with the source: the
element-wise median across the channel axis of a frame's list of
per-channel 2-vector offsets. -/
def elementwiseMedian (offsets : List (ℚ × ℚ)) : ℚ × ℚ :=
  (npMedian (offsets.map Prod.fst), npMedian (offsets.map Prod.snd))

/-- The aggregated per-frame shift computed by `coregister_stack` when
`do_shift=True` (the value it both applies and returns). -/
noncomputable def coregisterAveragedShifts {F m n C : ℕ}
    (stack : Fin F → Fin m → Fin n → Fin C → ℝ) (base : Fin F)
    (register : (Fin m → Fin n → ℂ) → (Fin m → Fin n → ℂ) → ℚ × ℚ) :
    Fin F → ℚ × ℚ :=
  aggregateShifts (computeShifts stack base register)

end Animate

namespace Animate

/-! ## Helper lemmas: sorting, `getD`, percentiles -/

theorem getD_of_lt {α : Type _} (l : List α) (i : ℕ) (d : α) (h : i < l.length) :
    l.getD i d = l.get ⟨i, h⟩ := by
  simp [List.getD_eq_getElem?_getD, List.getElem?_eq_getElem h]

theorem sortQ_perm (xs : List ℚ) : List.Perm (sortQ xs) xs :=
  List.perm_insertionSort _ xs

theorem sortQ_sorted (xs : List ℚ) : List.Sorted (· ≤ ·) (sortQ xs) :=
  List.sorted_insertionSort _ xs

theorem sortQ_length (xs : List ℚ) : (sortQ xs).length = xs.length :=
  (sortQ_perm xs).length_eq

theorem mem_sortQ {a : ℚ} {xs : List ℚ} : a ∈ sortQ xs ↔ a ∈ xs :=
  (sortQ_perm xs).mem_iff

theorem sortQ_getD_mem (xs : List ℚ) (i : ℕ) (h : i < (sortQ xs).length) :
    (sortQ xs).getD i 0 ∈ xs := by
  rw [getD_of_lt _ _ _ h]
  exact mem_sortQ.mp (List.get_mem _ _ _)

theorem sortQ_getD_le (xs : List ℚ) (i j : ℕ) (hij : i ≤ j)
    (hj : j < (sortQ xs).length) :
    (sortQ xs).getD i 0 ≤ (sortQ xs).getD j 0 := by
  have hi : i < (sortQ xs).length := lt_of_le_of_lt hij hj
  rw [getD_of_lt _ _ _ hi, getD_of_lt _ _ _ hj]
  exact (sortQ_sorted xs).rel_get_of_le hij

/-- The sorted head is the minimum attained value. -/
theorem sortQ_head_eq {xs : List ℚ} {c : ℚ} (hc : c ∈ xs) (hmin : ∀ x ∈ xs, c ≤ x) :
    (sortQ xs).getD 0 0 = c := by
  have hlen : 0 < (sortQ xs).length := by
    rw [sortQ_length]
    exact List.length_pos.mpr (List.ne_nil_of_mem hc)
  obtain ⟨i, hi⟩ := List.get_of_mem (mem_sortQ.mpr hc)
  have h1 : (sortQ xs).getD 0 0 ≤ c := by
    rw [← hi, getD_of_lt _ _ _ hlen]
    exact (sortQ_sorted xs).rel_get_of_le (Nat.zero_le _)
  have h2 : c ≤ (sortQ xs).getD 0 0 := hmin _ (sortQ_getD_mem xs 0 hlen)
  exact le_antisymm h1 h2

/-- The last sorted element is the maximum attained value. -/
theorem sortQ_last_eq {xs : List ℚ} {c : ℚ} (hc : c ∈ xs) (hmax : ∀ x ∈ xs, x ≤ c) :
    (sortQ xs).getD ((sortQ xs).length - 1) 0 = c := by
  have hlen : 0 < (sortQ xs).length := by
    rw [sortQ_length]
    exact List.length_pos.mpr (List.ne_nil_of_mem hc)
  have hlast : (sortQ xs).length - 1 < (sortQ xs).length := Nat.sub_lt hlen Nat.one_pos
  obtain ⟨i, hi⟩ := List.get_of_mem (mem_sortQ.mpr hc)
  have h1 : c ≤ (sortQ xs).getD ((sortQ xs).length - 1) 0 := by
    rw [← hi, getD_of_lt _ _ _ hlast]
    exact (sortQ_sorted xs).rel_get_of_le (Nat.le_sub_one_of_lt i.isLt)
  have h2 : (sortQ xs).getD ((sortQ xs).length - 1) 0 ≤ c :=
    hmax _ (sortQ_getD_mem xs _ hlast)
  exact le_antisymm h2 h1

/-- Evaluation of `nanpercentile` when the fractional index is exactly a
natural position `k`: the interpolation weight vanishes and the result
is the sorted element at `k`. -/
theorem nanpercentile_eval_nat (xs : List ℚ) (p : ℚ) (k : ℕ)
    (hk : p / 100 * (((sortQ xs).length : ℚ) - 1) = (k : ℚ)) :
    nanpercentile xs p = (sortQ xs).getD k 0 := by
  simp only [nanpercentile, hk, Int.floor_natCast, Int.ceil_natCast, Int.toNat_natCast,
    Int.cast_natCast, sub_self, zero_mul, add_zero]

/-- Percentile 0 is the minimum of the population. -/
theorem nanpercentile_zero {xs : List ℚ} {c : ℚ} (hc : c ∈ xs)
    (hmin : ∀ x ∈ xs, c ≤ x) : nanpercentile xs 0 = c := by
  rw [nanpercentile_eval_nat xs 0 0 (by norm_num)]
  exact sortQ_head_eq hc hmin

/-- Percentile 100 is the maximum of the population. -/
theorem nanpercentile_hundred {xs : List ℚ} {c : ℚ} (hc : c ∈ xs)
    (hmax : ∀ x ∈ xs, x ≤ c) : nanpercentile xs 100 = c := by
  have hlen : 0 < (sortQ xs).length := by
    rw [sortQ_length]
    exact List.length_pos.mpr (List.ne_nil_of_mem hc)
  rw [nanpercentile_eval_nat xs 100 ((sortQ xs).length - 1) (by
    rw [Nat.cast_sub hlen]
    norm_num)]
  exact sortQ_last_eq hc hmax

/-- Any percentile in `[0, 100]` of a constant population is the constant. -/
theorem nanpercentile_const {xs : List ℚ} {c : ℚ} (hne : xs ≠ [])
    (hconst : ∀ x ∈ xs, x = c) {p : ℚ} (hp0 : 0 ≤ p) (hp1 : p ≤ 100) :
    nanpercentile xs p = c := by
  have hlen : 0 < (sortQ xs).length := by
    rw [sortQ_length]
    exact List.length_pos.mpr hne
  have hn1 : (1 : ℚ) ≤ ((sortQ xs).length : ℚ) := by exact_mod_cast hlen
  set h : ℚ := p / 100 * (((sortQ xs).length : ℚ) - 1) with hh
  have hh0 : 0 ≤ h := mul_nonneg (by positivity) (by linarith)
  have hh1 : h ≤ ((sortQ xs).length : ℚ) - 1 := by
    have hd : p / 100 ≤ 1 := by linarith [(div_le_one (by norm_num : (0:ℚ) < 100)).mpr hp1]
    nlinarith
  have hfl0 : 0 ≤ ⌊h⌋ := Int.floor_nonneg.mpr hh0
  have hfl1 : (⌊h⌋ : ℚ) ≤ ((sortQ xs).length : ℚ) - 1 := le_trans (Int.floor_le h) hh1
  have hcl0 : 0 ≤ ⌈h⌉ := le_trans hfl0 (Int.floor_le_ceil h)
  have hcl1 : ⌈h⌉ ≤ ((sortQ xs).length : ℤ) - 1 := by
    rw [Int.ceil_le]
    push_cast
    exact hh1
  have hfln : (⌊h⌋).toNat < (sortQ xs).length := by
    have : ⌊h⌋ ≤ ((sortQ xs).length : ℤ) - 1 := by exact_mod_cast hfl1
    omega
  have hcln : (⌈h⌉).toNat < (sortQ xs).length := by omega
  have hlo : (sortQ xs).getD (⌊h⌋).toNat 0 = c := hconst _ (sortQ_getD_mem xs _ hfln)
  have hhi : (sortQ xs).getD (⌈h⌉).toNat 0 = c := hconst _ (sortQ_getD_mem xs _ hcln)
  simp only [nanpercentile, ← hh, hlo, hhi]
  ring

/-! ## Helper lemmas: `rescale_img` -/

theorem nfMul_fin_fin (a b : ℚ) :
    NFloat.nfMul (.fin a) (.fin b) = .fin (a * b) := rfl

theorem nfClip_fin (a lo hi : ℚ) :
    NFloat.nfClip (.fin a) lo hi = .fin (min (max a lo) hi) := rfl

theorem nfDiv_fin_fin_of_ne (a b : ℚ) (h : b ≠ 0) :
    NFloat.nfDiv (.fin a) (.fin b) = .fin (a / b) := by
  simp [NFloat.nfDiv, h]

/-- On the non-degenerate path (`vmax ≠ vmin`) all of `rescale_img` is
finite rational arithmetic: every pixel is
`clip((x - vmin) * max_val / (vmax - vmin), min_val, max_val)`. -/
theorem rescale_img_nondegenerate (img : List ℚ) (mn mx p q : ℚ)
    (hv : nanpercentile img q ≠ nanpercentile img p) :
    rescale_img img mn mx p q =
      img.map (fun x => NFloat.fin (clipQ
        ((x - nanpercentile img p) * mx /
          (nanpercentile img q - nanpercentile img p)) mn mx)) := by
  have hne : nanpercentile img q - nanpercentile img p ≠ 0 := sub_ne_zero.mpr hv
  simp only [rescale_img, nfDiv_fin_fin_of_ne _ _ hne, nfMul_fin_fin]
  refine List.map_congr_left (fun x _ => ?_)
  rw [nfClip_fin]
  have harith : (x - nanpercentile img p) *
        (1 / (nanpercentile img q - nanpercentile img p) * mx) =
      (x - nanpercentile img p) * mx /
        (nanpercentile img q - nanpercentile img p) := by
    field_simp
  rw [harith]
  simp [clipQ, min_comm]

/-- On a constant frame the percentile range degenerates, the scale
factor becomes infinite (or NaN for `max_val = 0`), and every pixel
becomes `0 * (±inf) = NaN` (or `0 * NaN = NaN`). -/
theorem rescale_img_const (img : List ℚ) (c mn mx p q : ℚ) (hne : img ≠ [])
    (hconst : ∀ x ∈ img, x = c) (hp0 : 0 ≤ p) (hp1 : p ≤ 100)
    (hq0 : 0 ≤ q) (hq1 : q ≤ 100) :
    rescale_img img mn mx p q = img.map (fun _ => NFloat.nan) := by
  have hp : nanpercentile img p = c := nanpercentile_const hne hconst hp0 hp1
  have hq : nanpercentile img q = c := nanpercentile_const hne hconst hq0 hq1
  simp only [rescale_img, hp, hq, sub_self]
  refine List.map_congr_left (fun x hx => ?_)
  rw [hconst x hx]
  have hdiv : NFloat.nfDiv (.fin 1) (.fin 0) = NFloat.inf := by
    norm_num [NFloat.nfDiv]
  rw [sub_self, hdiv]
  rcases lt_trichotomy mx 0 with hmx | hmx | hmx
  · simp [NFloat.nfMul, NFloat.nfClip, NFloat.nfMaxFin, NFloat.nfMinFin,
      hmx, not_lt_of_lt hmx, lt_irrefl]
  · simp [NFloat.nfMul, NFloat.nfClip, NFloat.nfMaxFin, NFloat.nfMinFin, hmx]
  · simp [NFloat.nfMul, NFloat.nfClip, NFloat.nfMaxFin, NFloat.nfMinFin,
      hmx, not_lt_of_lt hmx, lt_irrefl]

/-! ## Claims C2-C5: the Normalizer (`rescale_img`) -/

/-- C2, corrected.  The Normalizer computes the `pmin`-th and `pmax`-th
percentiles `vmin, vmax` and returns
`(in - vmin) * max_val / (vmax - vmin)` clipped to `[min_val, max_val]`
(and cast to the target dtype): contrary to the claim, the affine map
is NOT `(in - vmin) * (max_val - min_val) / (vmax - vmin) + min_val`
and the result is not offset by `min_val`; `min_val` only acts as the
lower clipping bound.  Stated for any non-degenerate percentile range. -/
theorem claim2_rescale_affine (img : List ℚ) (min_val max_val pmin pmax : ℚ)
    (hv : nanpercentile img pmax ≠ nanpercentile img pmin) :
    rescale_img img min_val max_val pmin pmax =
      img.map (fun x => NFloat.fin (clipQ
        ((x - nanpercentile img pmin) * max_val /
          (nanpercentile img pmax - nanpercentile img pmin)) min_val max_val)) :=
  rescale_img_nondegenerate img min_val max_val pmin pmax hv

theorem claim2_rescale_affine_witness :
    nanpercentile [0, 1, 2] 100 ≠ nanpercentile [0, 1, 2] 0 ∧
    rescale_img [0, 1, 2] 1 3 0 100 =
      [0, 1, 2].map (fun x => NFloat.fin (clipQ
        ((x - nanpercentile [0, 1, 2] 0) * 3 /
          (nanpercentile [0, 1, 2] 100 - nanpercentile [0, 1, 2] 0)) 1 3)) := by
  have h0 : nanpercentile [0, 1, 2] 0 = 0 :=
    nanpercentile_zero (by norm_num) (by norm_num)
  have h2 : nanpercentile [0, 1, 2] 100 = 2 :=
    nanpercentile_hundred (by norm_num) (by norm_num)
  have hv : nanpercentile [0, 1, 2] 100 ≠ nanpercentile [0, 1, 2] 0 := by
    rw [h0, h2]; norm_num
  exact ⟨hv, claim2_rescale_affine [0, 1, 2] 1 3 0 100 hv⟩

/-- C2, counterexample to the claim as stated: on the frame `[0, 1, 2]`
with `min_val = 1`, `max_val = 3`, `pmin = 0`, `pmax = 100` the source
returns `[1, 3/2, 3]` while the spec's formula
`(in - vmin) * (max_val - min_val) / (vmax - vmin) + min_val` (clipped)
gives `[1, 2, 3]`: the middle pixel differs, so the output is not offset
by `min_val`. -/
theorem claim2_counterexample :
    rescale_img [0, 1, 2] 1 3 0 100 ≠
      (rescale_img_specFormula [0, 1, 2] 1 3 0 100).map NFloat.fin := by
  have h0 : nanpercentile [0, 1, 2] 0 = 0 :=
    nanpercentile_zero (by norm_num) (by norm_num)
  have h2 : nanpercentile [0, 1, 2] 100 = 2 :=
    nanpercentile_hundred (by norm_num) (by norm_num)
  have hv : nanpercentile [0, 1, 2] 100 ≠ nanpercentile [0, 1, 2] 0 := by
    rw [h0, h2]; norm_num
  have hL : rescale_img [0, 1, 2] 1 3 0 100 = [.fin 1, .fin (3/2), .fin 3] := by
    rw [rescale_img_nondegenerate _ _ _ _ _ hv, h0, h2]
    norm_num [clipQ, min_def, max_def]
  have hR : rescale_img_specFormula [0, 1, 2] 1 3 0 100 = [1, 2, 3] := by
    simp only [rescale_img_specFormula, h0, h2]
    norm_num [clipQ, min_def, max_def]
  rw [hL, hR]
  intro hEq
  have := List.head_eq_of_cons_eq (List.tail_eq_of_cons_eq hEq)
  simp only [NFloat.fin.injEq] at this
  norm_num at this

/-- C3, code bug.  The spec requires the degenerate case `vmax = vmin`
to avoid the division by zero and produce a frame of `min_val`; the
source divides by the zero range anyway, so on a constant frame the
scale factor is `1/0 * max_val = ±inf` (`NaN` for `max_val = 0`) and
every pixel evaluates to `(x - vmin) * scale = 0 * (±inf) = NaN`: the
output is entirely NaN, not `min_val`. -/
theorem claim3_degenerate_nan (img : List ℚ) (c min_val max_val pmin pmax : ℚ)
    (hne : img ≠ []) (hconst : ∀ x ∈ img, x = c) (hp0 : 0 ≤ pmin)
    (hp1 : pmin ≤ 100) (hq0 : 0 ≤ pmax) (hq1 : pmax ≤ 100) :
    rescale_img img min_val max_val pmin pmax = img.map (fun _ => NFloat.nan) :=
  rescale_img_const img c min_val max_val pmin pmax hne hconst hp0 hp1 hq0 hq1

theorem claim3_degenerate_nan_witness :
    ([5, 5, 5] : List ℚ) ≠ [] ∧ (∀ x ∈ ([5, 5, 5] : List ℚ), x = 5) ∧
    rescale_img [5, 5, 5] 0 1 0 100 = [5, 5, 5].map (fun _ => NFloat.nan) :=
  ⟨by simp, by norm_num,
    claim3_degenerate_nan [5, 5, 5] 5 0 1 0 100 (by simp) (by norm_num)
      (by norm_num) (by norm_num) (by norm_num) (by norm_num)⟩

/-- C4, counterexample to the claim as stated: the constant (hence
all-finite) frame `[2, 2]` rescaled to `[0, 1]` with `pmin = 0`,
`pmax = 100` produces NaN pixels, which lie in no range. -/
theorem claim4_counterexample :
    ¬ (∀ y ∈ rescale_img [2, 2] 0 1 0 100, y.inRange 0 1 = true) := by
  have h : rescale_img [2, 2] 0 1 0 100 = [2, 2].map (fun _ => NFloat.nan) :=
    rescale_img_const [2, 2] 2 0 1 0 100 (by simp) (by norm_num) (by norm_num)
      (by norm_num) (by norm_num) (by norm_num)
  intro hall
  have h2 := hall NFloat.nan (by rw [h]; simp)
  simp [NFloat.inRange] at h2

/-- C4, corrected.  The clip invariant holds for every finite frame
whose `pmin`/`pmax` percentiles differ (and ordered target range):
every output pixel is a finite value in `[min_val, max_val]`.  The
invariant fails only through the degenerate-range NaN path of C3. -/
theorem claim4_clip_invariant (img : List ℚ) (min_val max_val pmin pmax : ℚ)
    (hmn : min_val ≤ max_val)
    (hv : nanpercentile img pmax ≠ nanpercentile img pmin) :
    ∀ y ∈ rescale_img img min_val max_val pmin pmax,
      y.inRange min_val max_val = true := by
  rw [rescale_img_nondegenerate _ _ _ _ _ hv]
  intro y hy
  rw [List.mem_map] at hy
  obtain ⟨x, -, rfl⟩ := hy
  simp only [NFloat.inRange, Bool.and_eq_true, decide_eq_true_eq, clipQ]
  exact ⟨le_min hmn (le_max_right _ _), min_le_left _ _⟩

theorem claim4_clip_invariant_witness :
    (0 : ℚ) ≤ 1 ∧ nanpercentile [0, 1, 2] 100 ≠ nanpercentile [0, 1, 2] 0 ∧
    ∀ y ∈ rescale_img [0, 1, 2] 0 1 0 100, y.inRange 0 1 = true := by
  have h0 : nanpercentile [0, 1, 2] 0 = 0 :=
    nanpercentile_zero (by norm_num) (by norm_num)
  have h2 : nanpercentile [0, 1, 2] 100 = 2 :=
    nanpercentile_hundred (by norm_num) (by norm_num)
  have hv : nanpercentile [0, 1, 2] 100 ≠ nanpercentile [0, 1, 2] 0 := by
    rw [h0, h2]; norm_num
  exact ⟨by norm_num, hv, claim4_clip_invariant [0, 1, 2] 0 1 0 100 (by norm_num) hv⟩

/-- C5, corrected.  With `min_val = 0` (the only configuration the
pipeline uses: ranges `[0,1]` and `[0,255]`), a frame that already spans
exactly `[0, max_val]` is returned unchanged by the Normalizer with
`pmin = 0`, `pmax = 100`, so a second application returns the same frame
as the first.  For nonzero `min_val` the missing `+ min_val` offset
(C2) breaks idempotence, see the counterexample. -/
theorem claim5_idempotent (img : List ℚ) (max_val : ℚ) (hM : 0 < max_val)
    (h0 : (0 : ℚ) ∈ img) (hMem : max_val ∈ img)
    (hb : ∀ x ∈ img, 0 ≤ x ∧ x ≤ max_val) :
    rescale_img img 0 max_val 0 100 = img.map NFloat.fin ∧
    rescale_img ((rescale_img img 0 max_val 0 100).map NFloat.toRat) 0 max_val 0 100 =
      rescale_img img 0 max_val 0 100 := by
  have hvmin : nanpercentile img 0 = 0 :=
    nanpercentile_zero h0 (fun x hx => (hb x hx).1)
  have hvmax : nanpercentile img 100 = max_val :=
    nanpercentile_hundred hMem (fun x hx => (hb x hx).2)
  have hv : nanpercentile img 100 ≠ nanpercentile img 0 := by
    rw [hvmin, hvmax]
    exact ne_of_gt hM
  have hid : rescale_img img 0 max_val 0 100 = img.map NFloat.fin := by
    rw [rescale_img_nondegenerate _ _ _ _ _ hv, hvmin, hvmax]
    refine List.map_congr_left (fun x hx => ?_)
    obtain ⟨hx0, hxM⟩ := hb x hx
    congr 1
    have hxq : x * max_val / max_val = x := by field_simp
    rw [clipQ, sub_zero, sub_zero, hxq, max_eq_left hx0, min_eq_right hxM]
  refine ⟨hid, ?_⟩
  have hback : (rescale_img img 0 max_val 0 100).map NFloat.toRat = img := by
    rw [hid, List.map_map]
    have hcomp : NFloat.toRat ∘ NFloat.fin = id := funext fun q => rfl
    rw [hcomp, List.map_id]
  rw [hback]

theorem claim5_idempotent_witness :
    (0 : ℚ) < 1 ∧ (0 : ℚ) ∈ [0, 1/2, 1] ∧ (1 : ℚ) ∈ [0, 1/2, 1] ∧
    rescale_img [0, 1/2, 1] 0 1 0 100 = [0, 1/2, 1].map NFloat.fin ∧
    rescale_img ((rescale_img [0, 1/2, 1] 0 1 0 100).map NFloat.toRat) 0 1 0 100 =
      rescale_img [0, 1/2, 1] 0 1 0 100 := by
  have h := claim5_idempotent [0, 1/2, 1] 1 (by norm_num) (by norm_num)
    (by norm_num) (by norm_num)
  exact ⟨by norm_num, by norm_num, by norm_num, h.1, h.2⟩

/-- C5, counterexample to the claim as stated: the frame `[1, 2, 3]`
spans exactly `[min_val, max_val] = [1, 3]`; the first application of
the Normalizer (pmin 0, pmax 100) yields the all-finite frame
`[1, 3/2, 3]`, and applying the Normalizer to that output again yields
`[1, 1, 3] ≠ [1, 3/2, 3]`: with nonzero `min_val` the Normalizer is not
idempotent. -/
theorem claim5_counterexample :
    (∀ y ∈ rescale_img [1, 2, 3] 1 3 0 100, ∃ a, y = NFloat.fin a) ∧
    rescale_img ((rescale_img [1, 2, 3] 1 3 0 100).map NFloat.toRat) 1 3 0 100 ≠
      rescale_img [1, 2, 3] 1 3 0 100 := by
  have h1min : nanpercentile [1, 2, 3] 0 = 1 :=
    nanpercentile_zero (by norm_num) (by norm_num)
  have h1max : nanpercentile [1, 2, 3] 100 = 3 :=
    nanpercentile_hundred (by norm_num) (by norm_num)
  have hv1 : nanpercentile [1, 2, 3] 100 ≠ nanpercentile [1, 2, 3] 0 := by
    rw [h1min, h1max]; norm_num
  have hA : rescale_img [1, 2, 3] 1 3 0 100 = [.fin 1, .fin (3/2), .fin 3] := by
    rw [rescale_img_nondegenerate _ _ _ _ _ hv1, h1min, h1max]
    norm_num [clipQ, min_def, max_def]
  have h2min : nanpercentile [1, 3/2, 3] 0 = 1 :=
    nanpercentile_zero (by norm_num) (by norm_num)
  have h2max : nanpercentile [1, 3/2, 3] 100 = 3 :=
    nanpercentile_hundred (by norm_num) (by norm_num)
  have hv2 : nanpercentile [1, 3/2, 3] 100 ≠ nanpercentile [1, 3/2, 3] 0 := by
    rw [h2min, h2max]; norm_num
  have hB : rescale_img [1, 3/2, 3] 1 3 0 100 = [.fin 1, .fin 1, .fin 3] := by
    rw [rescale_img_nondegenerate _ _ _ _ _ hv2, h2min, h2max]
    norm_num [clipQ, min_def, max_def]
  constructor
  · rw [hA]
    intro y hy
    simp only [List.mem_cons, List.not_mem_nil, or_false] at hy
    rcases hy with rfl | rfl | rfl
    · exact ⟨1, rfl⟩
    · exact ⟨3/2, rfl⟩
    · exact ⟨3, rfl⟩
  · rw [hA]
    have hmap : ([NFloat.fin 1, NFloat.fin (3/2), NFloat.fin 3].map NFloat.toRat) =
        [1, 3/2, 3] := by
      simp [NFloat.toRat]
    rw [hmap, hB]
    intro hEq
    have := List.head_eq_of_cons_eq (List.tail_eq_of_cons_eq hEq)
    simp only [NFloat.fin.injEq] at this
    norm_num at this

/-! ## Helper lemmas: `pythonRound`, `pySlice`, `crop_img` -/

theorem pythonRound_ge_floor (q : ℚ) : ⌊q⌋ ≤ pythonRound q := by
  unfold pythonRound
  split_ifs <;> omega

theorem pythonRound_nonneg {q : ℚ} (h : 0 ≤ q) : 0 ≤ pythonRound q :=
  le_trans (Int.floor_nonneg.mpr h) (pythonRound_ge_floor q)

theorem pythonRound_le_half (q : ℚ) : (pythonRound q : ℚ) ≤ q + 1/2 := by
  have hfl := Int.floor_le q
  unfold pythonRound
  split_ifs with h1 h2 h3 <;> push_cast <;> linarith

theorem pythonRound_lt_half {q : ℚ} (h : q - ⌊q⌋ ≠ 1/2) :
    (pythonRound q : ℚ) < q + 1/2 := by
  have hfl := Int.floor_le q
  unfold pythonRound
  rcases lt_or_gt_of_ne h with h1 | h1
  · rw [if_pos h1]
    linarith
  · rw [if_neg (by linarith), if_pos h1]
    push_cast
    linarith

/-- Adding an integer commutes with Python rounding as long as the
fractional part is not exactly 1/2 (at 1/2 the round-half-to-even tie
break depends on the parity of the integer part). -/
theorem pythonRound_int_add (k : ℤ) (x : ℚ) (h : x - ⌊x⌋ ≠ 1/2) :
    pythonRound ((k : ℚ) + x) = k + pythonRound x := by
  have hfl : ⌊(k : ℚ) + x⌋ = k + ⌊x⌋ := Int.floor_int_add k x
  have hr : (k : ℚ) + x - (⌊(k : ℚ) + x⌋ : ℚ) = x - ⌊x⌋ := by
    rw [hfl]
    push_cast
    ring
  unfold pythonRound
  rw [hr, hfl]
  rcases lt_or_gt_of_ne h with h1 | h1
  · rw [if_pos h1, if_pos h1]
  · have h2 : ¬ (x - (⌊x⌋ : ℚ) < 1/2) := by linarith
    have h3 : (1 : ℚ)/2 < x - (⌊x⌋ : ℚ) := h1
    rw [if_neg h2, if_neg h2, if_pos h3, if_pos h3]
    omega

theorem pySlice_length_le {α : Type _} (s e : ℤ) (xs : List α) :
    (pySlice s e xs).length ≤ xs.length := by
  simp only [pySlice, List.length_take, List.length_drop]
  exact le_trans (min_le_right _ _) (Nat.sub_le _ _)

theorem pySlice_mem {α : Type _} {s e : ℤ} {xs : List α} {a : α}
    (h : a ∈ pySlice s e xs) : a ∈ xs := by
  simp only [pySlice] at h
  exact List.mem_of_mem_drop (List.mem_of_mem_take h)

/-- An in-bounds Python slice is plain drop-and-take. -/
theorem pySlice_of_bounds {α : Type _} (s e : ℤ) (xs : List α)
    (hs : 0 ≤ s) (hse : s ≤ e) (he : e ≤ (xs.length : ℤ)) :
    pySlice s e xs = (xs.drop s.toNat).take (e - s).toNat := by
  simp only [pySlice]
  rw [if_neg (by omega), if_neg (by omega),
    min_eq_left (show s ≤ (xs.length : ℤ) by omega), min_eq_left he]

/-! ## Claims C6 and C10: the Geometry Adjuster crop -/

/-- C6, corrected.  The crop removes rows only, contiguously and
centered: writing `nh = old_rows * (arH/arW)` (NOT rounded), the source
keeps the rows `[start : start + round(nh))` with
`start = round((old_rows - nh)/2)`, where `round` is Python's built-in
round-half-to-even.  Whenever `nh` is not exactly a half-integer, the
output row count is `round(nh)`; the claim's formulas — row count
`round(old x (h/w))`, start `round((old - new)/2)` computed from the
rounded count — fail at half-integers (see the counterexample).  And the
crop is a no-op in the pipeline when the target ratio equals the
frame's `columns:rows` ratio, because `transform_scenes` skips it. -/
theorem claim6_crop_rows (img : List (List (List ℚ))) (arW arH : ℚ)
    (hw : 0 < arW) (hh : 0 < arH) (hhw : arH ≤ arW)
    (hfrac : (img.length : ℚ) * (arH / arW) -
      (⌊(img.length : ℚ) * (arH / arW)⌋ : ℚ) ≠ 1/2) :
    crop_img img arW arH =
      (img.drop (pythonRound (((img.length : ℚ) -
        (img.length : ℚ) * (arH / arW)) / 2)).toNat).take
        (pythonRound ((img.length : ℚ) * (arH / arW))).toNat ∧
    (crop_img img arW arH).length =
      (pythonRound ((img.length : ℚ) * (arH / arW))).toNat ∧
    ∀ (rows cols : ℕ) (fr : List (List (List ℚ))),
      (rows : ℚ) / (cols : ℚ) = arH / arW → cropStage rows cols arW arH fr = fr := by
  have hr0 : 0 ≤ arH / arW := div_nonneg hh.le hw.le
  have hr1 : arH / arW ≤ 1 := (div_le_one hw).mpr hhw
  have hold0 : (0 : ℚ) ≤ (img.length : ℚ) := Nat.cast_nonneg _
  set old : ℚ := (img.length : ℚ) with hold
  set nh : ℚ := old * (arH / arW) with hnh
  have hnh0 : 0 ≤ nh := mul_nonneg hold0 hr0
  have hnhold : nh ≤ old := by nlinarith
  set a : ℚ := (old - nh) / 2 with ha
  have ha0 : 0 ≤ a := div_nonneg (by linarith) (by norm_num)
  set start := pythonRound a with hstart
  set cnt := pythonRound nh with hcnt
  have hstart0 : 0 ≤ start := pythonRound_nonneg ha0
  have hcnt0 : 0 ≤ cnt := pythonRound_nonneg hnh0
  have hstop : pythonRound ((start : ℚ) + nh) = start + cnt :=
    pythonRound_int_add start nh hfrac
  have hb1 : (start : ℚ) ≤ a + 1/2 := pythonRound_le_half a
  have hb2 : (cnt : ℚ) < nh + 1/2 := pythonRound_lt_half hfrac
  have hsum : start + cnt ≤ (img.length : ℤ) := by
    have hQ : ((start : ℚ) + (cnt : ℚ)) < old + 1 := by linarith
    have hZ : (start + cnt : ℤ) < (img.length : ℤ) + 1 := by
      rw [hold] at hQ
      exact_mod_cast hQ
    omega
  have hkey : crop_img img arW arH = (img.drop start.toNat).take cnt.toNat := by
    simp only [crop_img]
    rw [← hnh, ← ha, ← hstart, hstop,
      pySlice_of_bounds start (start + cnt) img hstart0 (by omega) hsum]
    have hsub : start + cnt - start = cnt := by ring
    rw [hsub]
  refine ⟨hkey, ?_, ?_⟩
  · rw [hkey, List.length_take, List.length_drop]
    omega
  · intro rows cols fr hmatch
    simp [cropStage, do_crop, hmatch]

theorem claim6_crop_rows_witness :
    (0 : ℚ) < 2 ∧ (0 : ℚ) < 1 ∧ (1 : ℚ) ≤ 2 ∧
    ((4 : ℚ) * (1 / 2) - (⌊(4 : ℚ) * (1 / 2)⌋ : ℚ) ≠ 1/2) ∧
    crop_img [[[0]], [[1]], [[2]], [[3]]] 2 1 =
      ([[[0]], [[1]], [[2]], [[3]]].drop
        (pythonRound (((4 : ℚ) - 4 * (1 / 2)) / 2)).toNat).take
        (pythonRound ((4 : ℚ) * (1 / 2))).toNat ∧
    (crop_img [[[0]], [[1]], [[2]], [[3]]] 2 1).length =
      (pythonRound ((4 : ℚ) * (1 / 2))).toNat := by
  have hfrac : ((([[[0]], [[1]], [[2]], [[3]]] :
      List (List (List ℚ))).length : ℚ) * (1 / 2) -
      (⌊(([[[0]], [[1]], [[2]], [[3]]] :
        List (List (List ℚ))).length : ℚ) * (1 / 2)⌋ : ℚ) ≠ 1/2) := by
    norm_num
  have h := claim6_crop_rows [[[0]], [[1]], [[2]], [[3]]] 2 1
    (by norm_num) (by norm_num) (by norm_num) hfrac
  refine ⟨by norm_num, by norm_num, by norm_num, by norm_num, ?_, ?_⟩
  · simpa using h.1
  · simpa using h.2.1

/-- C6, counterexample to the claim as stated: a frame of 101 rows
cropped to aspect ratio `width:height = 2:1`.  The claimed output row
count is `round(101 * (1/2)) = round(50.5) = 50` (Python rounds half to
even), but the source computes `start = round(25.25) = 25`,
`end = round(25 + 50.5) = round(75.5) = 76` and keeps `76 - 25 = 51`
rows. -/
theorem claim6_counterexample :
    (crop_img (List.replicate 101 [[0]]) 2 1).length ≠
      (pythonRound ((101 : ℚ) * (1 / 2))).toNat := by
  have h1 : pythonRound ((101 : ℚ) * (1 / 2)) = 50 := by
    norm_num [pythonRound]
  have h2 : pythonRound (((101 : ℚ) - 101 * (1 / 2)) / 2) = 25 := by
    norm_num [pythonRound]
  have h3 : pythonRound ((25 : ℚ) + 101 * (1 / 2)) = 76 := by
    norm_num [pythonRound]
  have hc : crop_img (List.replicate 101 [[(0 : ℚ)]]) 2 1 =
      pySlice 25 76 (List.replicate 101 [[(0 : ℚ)]]) := by
    simp only [crop_img, List.length_replicate, Nat.cast_ofNat]
    rw [h2]
    push_cast
    rw [h3]
  rw [hc, h1]
  have hlen : (pySlice 25 76 (List.replicate 101 [[(0 : ℚ)]])).length = 51 := by
    rw [pySlice_of_bounds 25 76 _ (by norm_num) (by norm_num)
      (by simp [List.length_replicate])]
    simp [List.length_take, List.length_drop]
  rw [hlen]
  omega

/-- C10, confirmed.  For positive aspect-ratio entries the crop returns
a selection of whole input rows: the row count never exceeds the
input's, every kept row keeps its column count, and every pixel its
channel count — the crop never pads or grows the frame, also when the
target row count `old_rows * (arH/arW)` exceeds the input's row count
(in that case the Python slice start is negative and wraps around). -/
theorem claim10_crop_never_grows (img : List (List (List ℚ))) (arW arH : ℚ)
    (hw : 0 < arW) (hh : 0 < arH) (C K : ℕ)
    (hdim : ∀ row ∈ img, row.length = C ∧ ∀ px ∈ row, px.length = K) :
    (crop_img img arW arH).length ≤ img.length ∧
    ∀ row ∈ crop_img img arW arH, row.length = C ∧ ∀ px ∈ row, px.length = K := by
  constructor
  · simp only [crop_img]
    exact pySlice_length_le _ _ _
  · intro row hrow
    simp only [crop_img] at hrow
    exact hdim row (pySlice_mem hrow)

theorem claim10_crop_never_grows_witness :
    (0 : ℚ) < 1 ∧ (0 : ℚ) < 2 ∧
    (∀ row ∈ ([[[0]], [[1]]] : List (List (List ℚ))),
      row.length = 1 ∧ ∀ px ∈ row, px.length = 1) ∧
    (crop_img [[[0]], [[1]]] 1 2).length ≤ 2 ∧
    ∀ row ∈ crop_img ([[[0]], [[1]]] : List (List (List ℚ))) 1 2,
      row.length = 1 ∧ ∀ px ∈ row, px.length = 1 := by
  have hdim : ∀ row ∈ ([[[0]], [[1]]] : List (List (List ℚ))),
      row.length = 1 ∧ ∀ px ∈ row, px.length = 1 := by
    intro row hrow
    rcases List.mem_cons.mp hrow with rfl | hrow2
    · exact ⟨rfl, by intro px hpx; simp at hpx; rw [hpx]; rfl⟩
    · rcases List.mem_cons.mp hrow2 with rfl | h
      · exact ⟨rfl, by intro px hpx; simp at hpx; rw [hpx]; rfl⟩
      · simp at h
  have h := claim10_crop_never_grows [[[0]], [[1]]] 1 2 (by norm_num) (by norm_num)
    1 1 hdim
  exact ⟨by norm_num, by norm_num, hdim, h.1, h.2⟩

/-! ## Claim C8: the Colorizer -/

/-- The trailing `[:-1]` slice drops exactly the last element. -/
theorem pySlice_dropLast_length {α : Type _} (xs : List α) :
    (pySlice 0 (-1) xs).length = xs.length - 1 := by
  simp only [pySlice, List.length_take, List.length_drop]
  norm_num
  omega

/-- C8, corrected.  On single-channel frames with more than one row and
more than one column (so that `numpy.squeeze` drops exactly the channel
axis; a singleton spatial axis instead makes the `[:, :, :-1]` slice
raise), the colorize branch always drops the LAST component of the
color function's output, not just an alpha/4th channel when present:
with a 4-component (RGBA) color function — matplotlib colormaps always
return RGBA — colorization succeeds and every output pixel has exactly
3 channels, but with a 3-component color function the output has 2
channels (see the counterexample). -/
theorem claim8_colorizer (cmap : ℚ → List ℚ) (img : List (List (List ℚ)))
    (hrows : img.length ≠ 1) (hcols : (img.headD []).length ≠ 1)
    (hcmap : ∀ v, (cmap v).length = 4) :
    ∃ out, colorize cmap img = some out ∧
      ∀ row ∈ out, ∀ px ∈ row, px.length = 3 := by
  refine ⟨img.map (fun row => row.map (fun px => pySlice 0 (-1) (cmap (px.headD 0)))),
    ?_, ?_⟩
  · simp only [colorize]
    rw [if_neg (not_or.mpr ⟨hrows, hcols⟩)]
  · intro row hrow px hpx
    rw [List.mem_map] at hrow
    obtain ⟨row0, -, rfl⟩ := hrow
    rw [List.mem_map] at hpx
    obtain ⟨px0, -, rfl⟩ := hpx
    rw [pySlice_dropLast_length, hcmap]

theorem claim8_colorizer_witness :
    ([[[1], [2]], [[3], [4]]] : List (List (List ℚ))).length ≠ 1 ∧
    (([[[1], [2]], [[3], [4]]] : List (List (List ℚ))).headD []).length ≠ 1 ∧
    (∀ v : ℚ, ([v, v, v, 1] : List ℚ).length = 4) ∧
    ∃ out, colorize (fun v => [v, v, v, 1])
        ([[[1], [2]], [[3], [4]]] : List (List (List ℚ))) = some out ∧
      ∀ row ∈ out, ∀ px ∈ row, px.length = 3 :=
  ⟨by decide, by decide, fun _ => rfl,
    claim8_colorizer (fun v => [v, v, v, 1]) [[[1], [2]], [[3], [4]]]
      (by decide) (by decide) (fun _ => rfl)⟩

/-- C8, counterexample to the claim as stated: a color transfer
function returning 3 components, applied to a 2×2 single-channel frame
(both spatial axes non-singleton, so colorization does run).  The slice
`[:, :, :-1]` still drops the last component, leaving every pixel with
2 channels, not 3. -/
theorem claim8_counterexample :
    ¬ ∃ out, colorize (fun _ => [0, 0, 0])
        ([[[0], [0]], [[0], [0]]] : List (List (List ℚ))) = some out ∧
      ∀ row ∈ out, ∀ px ∈ row, px.length = 3 := by
  rintro ⟨out, hout, hlen⟩
  have hg : colorize (fun _ => ([0, 0, 0] : List ℚ))
      ([[[0], [0]], [[0], [0]]] : List (List (List ℚ))) =
      some [[pySlice 0 (-1) [0, 0, 0], pySlice 0 (-1) [0, 0, 0]],
        [pySlice 0 (-1) [0, 0, 0], pySlice 0 (-1) [0, 0, 0]]] := by
    simp only [colorize]
    rw [if_neg (by decide)]
    rfl
  rw [hg] at hout
  obtain rfl := Option.some.inj hout
  have hpx := hlen [pySlice 0 (-1) [0, 0, 0], pySlice 0 (-1) [0, 0, 0]]
    (List.mem_cons_self _ _) (pySlice 0 (-1) [0, 0, 0]) (List.mem_cons_self _ _)
  rw [pySlice_dropLast_length] at hpx
  simp at hpx

/-! ## Claim C1: the Shift Aggregator -/

theorem npMedian_all_zero {xs : List ℚ} (h : ∀ x ∈ xs, x = 0) :
    npMedian xs = 0 := by
  have hmem : ∀ i, (sortQ xs).getD i 0 = 0 := by
    intro i
    by_cases hi : i < (sortQ xs).length
    · exact h _ (sortQ_getD_mem xs i hi)
    · exact List.getD_eq_default _ _ (le_of_not_lt hi)
  simp only [npMedian]
  split_ifs
  · exact hmem _
  · rw [hmem, hmem]
    norm_num

/-- C1, confirmed.  (a) The reference frame's aggregated shift is
exactly `(0, 0)`: the shift array is initialized to zeros and the loop
skips the base frame, so the median over its channels is `(0, 0)`.
(b) For every frame, the per-frame shift `np.median(shifts, axis=1)`
equals the element-wise median of that frame's list of per-channel
2-vector offsets.  (c) For a frame with channel offsets
`[(1,1), (1,1), (5,5)]` the aggregated shift is `(1, 1)`. -/
theorem claim1_shift_aggregator :
    (∀ (F m n C : ℕ) (stack : Fin F → Fin m → Fin n → Fin C → ℝ) (base : Fin F)
      (register : (Fin m → Fin n → ℂ) → (Fin m → Fin n → ℂ) → ℚ × ℚ),
      0 < C → coregisterAveragedShifts stack base register base = (0, 0)) ∧
    (∀ (F C : ℕ) (S : Fin F → Fin C → ℚ × ℚ) (f : Fin F),
      aggregateShifts S f = elementwiseMedian (List.ofFn (S f))) ∧
    aggregateShifts (fun (_ : Fin 1) (c : Fin 3) =>
      [((1 : ℚ), (1 : ℚ)), (1, 1), (5, 5)].getD c.1 ((0 : ℚ), (0 : ℚ))) 0 = (1, 1) := by
  refine ⟨?_, ?_, ?_⟩
  · intro F m n C stack base register _
    have hz : ∀ c : Fin C, computeShifts stack base register base c = (0, 0) := by
      intro c
      simp [computeShifts]
    simp only [coregisterAveragedShifts, aggregateShifts, Prod.mk.injEq]
    refine ⟨?_, ?_⟩ <;>
      · apply npMedian_all_zero
        intro x hx
        rw [List.mem_ofFn] at hx
        obtain ⟨c, rfl⟩ := hx
        simp [hz c]
  · intro F C S f
    simp only [aggregateShifts, elementwiseMedian, List.map_ofFn]
    rfl
  · decide

theorem claim1_shift_aggregator_witness :
    (0 : ℕ) < 3 ∧
    coregisterAveragedShifts
      (fun (_ : Fin 2) (_ : Fin 1) (_ : Fin 1) (_ : Fin 3) => (0 : ℝ))
      0 (fun _ _ => (7, 9)) 0 = (0, 0) :=
  ⟨by norm_num,
    claim1_shift_aggregator.1 2 1 1 3 _ 0 _ (by norm_num)⟩

/-! ## Helper lemmas: the discrete Fourier transform -/

theorem eunit_add (n : ℕ) (a b : ℤ) : eunit n a * eunit n b = eunit n (a + b) := by
  unfold eunit
  rw [← Complex.exp_add]
  congr 1
  push_cast
  ring

theorem eunit_zero (n : ℕ) : eunit n 0 = 1 := by
  simp [eunit]

theorem eunit_pow (n : ℕ) (a : ℤ) (k : ℕ) : eunit n ((k : ℤ) * a) = eunit n a ^ k := by
  unfold eunit
  rw [← Complex.exp_nat_mul]
  congr 1
  push_cast
  ring

theorem eunit_n_mul (n : ℕ) (t : ℤ) (hn : n ≠ 0) : eunit n ((n : ℤ) * t) = 1 := by
  have hnC : (n : ℂ) ≠ 0 := Nat.cast_ne_zero.mpr hn
  have key : 2 * (Real.pi : ℂ) * Complex.I * (((n : ℤ) * t : ℤ) : ℂ) / (n : ℂ) =
      (t : ℂ) * (2 * (Real.pi : ℂ) * Complex.I) := by
    push_cast
    field_simp
    ring
  unfold eunit
  rw [key]
  exact Complex.exp_int_mul_two_pi_mul_I t

theorem sum_eunit_dvd (n : ℕ) (a : ℤ) (h : (n : ℤ) ∣ a) :
    ∑ k : Fin n, eunit n ((k.1 : ℤ) * a) = (n : ℂ) := by
  by_cases hn : n = 0
  · subst hn
    simp
  · obtain ⟨t, rfl⟩ := h
    have hone : ∀ k : Fin n, eunit n ((k.1 : ℤ) * ((n : ℤ) * t)) = 1 := by
      intro k
      rw [show (k.1 : ℤ) * ((n : ℤ) * t) = (n : ℤ) * ((k.1 : ℤ) * t) from by ring]
      exact eunit_n_mul n _ hn
    rw [Finset.sum_congr rfl (fun k _ => hone k)]
    simp [Finset.card_univ]

theorem sum_eunit_not_dvd (n : ℕ) (a : ℤ) (h : ¬ (n : ℤ) ∣ a) :
    ∑ k : Fin n, eunit n ((k.1 : ℤ) * a) = 0 := by
  by_cases hn : n = 0
  · subst hn
    simp
  · have hnC : (n : ℂ) ≠ 0 := Nat.cast_ne_zero.mpr hn
    have hr1 : eunit n a ≠ 1 := by
      intro h1
      unfold eunit at h1
      rw [Complex.exp_eq_one_iff] at h1
      obtain ⟨m, hm⟩ := h1
      have hm2 : 2 * (Real.pi : ℂ) * Complex.I * (a : ℂ) =
          2 * (Real.pi : ℂ) * Complex.I * ((m : ℂ) * (n : ℂ)) := by
        field_simp at hm
        linear_combination hm
      have hm3 : (a : ℂ) = (m : ℂ) * (n : ℂ) :=
        mul_left_cancel₀ Complex.two_pi_I_ne_zero hm2
      have hm4 : a = m * n := by exact_mod_cast hm3
      exact h ⟨m, by rw [hm4]; ring⟩
    have hpow : ∀ k : Fin n, eunit n ((k.1 : ℤ) * a) = eunit n a ^ k.1 :=
      fun k => eunit_pow n a k.1
    rw [Finset.sum_congr rfl (fun k _ => hpow k),
      Fin.sum_univ_eq_sum_range (fun i => eunit n a ^ i) n, geom_sum_eq hr1]
    have hzn : eunit n a ^ n = 1 := by
      rw [← eunit_pow]
      rw [show ((n : ℕ) : ℤ) * a = (n : ℤ) * a from rfl]
      obtain ⟨t, rfl⟩ : ∃ t, a = t := ⟨a, rfl⟩
      exact eunit_n_mul n a hn
    rw [hzn]
    simp

/-- The Fourier inversion formula for the 1-D DFT with numpy's
normalization: `ifft(fft(x)) = x`. -/
theorem idft1_dft1 {n : ℕ} (x : Fin n → ℂ) : idft1 (dft1 x) = x := by
  funext j
  have hn0 : 0 < n := j.pos
  have hnC : (n : ℂ) ≠ 0 := Nat.cast_ne_zero.mpr hn0.ne'
  simp only [idft1, dft1]
  rw [div_eq_iff hnC]
  have step1 : ∀ k : Fin n,
      (∑ m, x m * eunit n (-((k.1 : ℤ) * (m.1 : ℤ)))) * eunit n ((k.1 : ℤ) * (j.1 : ℤ)) =
      ∑ m, x m * eunit n ((k.1 : ℤ) * ((j.1 : ℤ) - (m.1 : ℤ))) := by
    intro k
    rw [Finset.sum_mul]
    refine Finset.sum_congr rfl (fun m _ => ?_)
    rw [mul_assoc, eunit_add]
    congr 2
    ring
  rw [Finset.sum_congr rfl (fun k _ => step1 k), Finset.sum_comm]
  have step2 : ∀ m : Fin n,
      ∑ k : Fin n, x m * eunit n ((k.1 : ℤ) * ((j.1 : ℤ) - (m.1 : ℤ))) =
      x m * ∑ k : Fin n, eunit n ((k.1 : ℤ) * ((j.1 : ℤ) - (m.1 : ℤ))) :=
    fun m => (Finset.mul_sum _ _ _).symm
  rw [Finset.sum_congr rfl (fun m _ => step2 m)]
  have hzero : ∀ m ∈ Finset.univ, m ≠ j →
      x m * ∑ k : Fin n, eunit n ((k.1 : ℤ) * ((j.1 : ℤ) - (m.1 : ℤ))) = 0 := by
    intro m _ hm
    rw [sum_eunit_not_dvd, mul_zero]
    intro hdvd
    obtain ⟨t, ht⟩ := hdvd
    have hnZ : (0 : ℤ) < (n : ℤ) := by exact_mod_cast hn0
    have hjlt : (j.1 : ℤ) < (n : ℤ) := by exact_mod_cast j.isLt
    have hmlt : (m.1 : ℤ) < (n : ℤ) := by exact_mod_cast m.isLt
    have hj0 : (0 : ℤ) ≤ (j.1 : ℤ) := Int.natCast_nonneg _
    have hm0 : (0 : ℤ) ≤ (m.1 : ℤ) := Int.natCast_nonneg _
    have ht1 : t < 1 := by nlinarith
    have ht2 : -1 < t := by nlinarith
    have ht0 : t = 0 := by omega
    rw [ht0, mul_zero] at ht
    have hjm : (j.1 : ℤ) = (m.1 : ℤ) := by omega
    exact hm (Fin.ext (by exact_mod_cast hjm.symm))
  rw [Finset.sum_eq_single_of_mem j (Finset.mem_univ j) hzero, sub_self,
    sum_eunit_dvd n 0 (dvd_zero _)]

/-- Linearity of the inverse 1-D DFT over a finite sum of columns with
constant coefficients. -/
theorem idft1_sum {n m' : ℕ} (f : Fin m' → Fin n → ℂ) (c : Fin m' → ℂ) (k : Fin n) :
    idft1 (fun v => ∑ a, f a v * c a) k = ∑ a, idft1 (f a) k * c a := by
  simp only [idft1]
  rw [Finset.sum_congr rfl (fun v (_ : v ∈ Finset.univ) =>
    Finset.sum_mul Finset.univ (fun a => f a v * c a) (eunit n ((v.1 : ℤ) * (k.1 : ℤ)))),
    Finset.sum_comm, Finset.sum_div]
  refine Finset.sum_congr rfl (fun a _ => ?_)
  rw [Finset.sum_congr rfl (fun v (_ : v ∈ Finset.univ) =>
    show f a v * c a * eunit n ((v.1 : ℤ) * (k.1 : ℤ)) =
      f a v * eunit n ((v.1 : ℤ) * (k.1 : ℤ)) * c a from by ring),
    ← Finset.sum_mul, mul_div_right_comm]

/-- The Fourier inversion formula for the separable 2-D DFT:
`ifft2(fft2(x)) = x`. -/
theorem ifft2_fft2 {m n : ℕ} (x : Fin m → Fin n → ℂ) : ifft2 (fft2 x) = x := by
  funext j k
  have inner : ∀ u : Fin m, idft1 (fft2 x u) k = dft1 (fun a => x a k) u := by
    intro u
    have hfg : fft2 x u =
        fun v => ∑ a, dft1 (x a) v * eunit m (-((u.1 : ℤ) * (a.1 : ℤ))) := rfl
    rw [hfg, idft1_sum (fun a => dft1 (x a))
      (fun a => eunit m (-((u.1 : ℤ) * (a.1 : ℤ)))) k]
    refine Finset.sum_congr rfl (fun a _ => ?_)
    rw [congrFun (idft1_dft1 (x a)) k]
  have houter : (fun u => idft1 (fft2 x u) k) = dft1 (fun a => x a k) :=
    funext fun u => inner u
  show idft1 (fun u => idft1 (fft2 x u) k) j = x j k
  rw [houter, congrFun (idft1_dft1 (fun a => x a k)) j]

/-- The `fourier_shift` phase ramp with shift `(0, 0)` is the constant 1:
the spectrum is unchanged. -/
theorem fourierShift_zero {m n : ℕ} (y : Fin m → Fin n → ℂ) :
    fourierShift y (0, 0) = y := by
  funext u v
  simp [fourierShift]

theorem shiftLoop_short {m n c : ℕ} :
    ∀ (frames : List (Fin m → Fin n → Fin c → ℂ)) (shifts : List (ℚ × ℚ)),
      shifts.length < frames.length → shiftLoop frames shifts = .error .indexError := by
  intro frames
  induction frames with
  | nil =>
    intro shifts h
    simp at h
  | cons fr rest ih =>
    intro shifts h
    cases shifts with
    | nil => rfl
    | cons s ss =>
      simp only [shiftLoop]
      rw [ih ss (by simpa using h)]
      rfl

/-- The per-frame unit of `shift_stack` in `"real"` mode at shift
`(0, 0)` reproduces the input frame exactly: the phase ramp is 1 and
`ifft2 ∘ fft2` is the identity. -/
theorem shiftOne_zero_of_fft {m n c : ℕ} (x : Fin m → Fin n → Fin c → ℝ) :
    shiftOne (fun i j l => fft2 (fun a b => (((toCFrame x) a b l).re : ℂ)) i j)
      (0, 0) = x := by
  funext i j l
  simp only [shiftOne, fourierShift_zero, toCFrame, Complex.ofReal_re]
  rw [show (fun a b => fft2 (fun a' b' => ((x a' b' l : ℝ) : ℂ)) a b) =
    fft2 (fun a' b' => ((x a' b' l : ℝ) : ℂ)) from rfl]
  rw [congrFun (congrFun (ifft2_fft2 (fun a' b' => ((x a' b' l : ℝ) : ℂ))) i) j]
  exact Complex.ofReal_re _

/-- In `"real"` mode with an all-zero shift list covering every frame,
`shift_stack` returns the input stack unchanged. -/
theorem shift_stack_zero {m n c : ℕ} (xs : List (Fin m → Fin n → Fin c → ℝ))
    (shifts : List (ℚ × ℚ)) (hz : ∀ s ∈ shifts, s = (0, 0))
    (hlen : xs.length ≤ shifts.length) :
    shift_stack (xs.map toCFrame) shifts "real" = .ok xs := by
  simp only [shift_stack]
  rw [if_pos (by decide : strLower "real" = "real"), List.map_map]
  induction xs generalizing shifts with
  | nil => rfl
  | cons fr rest ih =>
    cases shifts with
    | nil => simp at hlen
    | cons s ss =>
      have hs : s = (0, 0) := hz s (List.mem_cons_self _ _)
      have htail := ih ss (fun s' hs' => hz s' (List.mem_cons_of_mem _ hs'))
        (by simpa using hlen)
      simp only [List.map_cons, shiftLoop, htail, Except.map]
      rw [hs]
      rw [show shiftOne
          (((fun fr' : Fin m → Fin n → Fin c → ℂ =>
            fun i j l => fft2 (fun a b => ((fr' a b l).re : ℂ)) i j) ∘ toCFrame) fr)
          ((0 : ℚ), (0 : ℚ)) =
        shiftOne (fun i j l => fft2 (fun a b => (((toCFrame fr) a b l).re : ℂ)) i j)
          ((0 : ℚ), (0 : ℚ)) from rfl]
      rw [shiftOne_zero_of_fft fr]

/-! ## Claims C7 and C9: the Fourier Shifter (`shift_stack`) -/

/-- C7, confirmed.  The Fourier Shifter applied with shift `(0, 0)` to
every frame of a real-valued stack returns the stack unchanged (exactly,
in this exact-arithmetic model — hence a fortiori within floating
tolerance): the `fourier_shift` phase ramp at `(0, 0)` is the constant 1
and `ifft2 (fft2 x)).re = x`.  In particular the reference frame, whose
aggregated shift is `(0, 0)` by C1, is returned unchanged. -/
theorem claim7_zero_shift_identity {m n c : ℕ}
    (xs : List (Fin m → Fin n → Fin c → ℝ)) (shifts : List (ℚ × ℚ))
    (hz : ∀ s ∈ shifts, s = (0, 0)) (hlen : xs.length ≤ shifts.length) :
    shift_stack (xs.map toCFrame) shifts "real" = .ok xs :=
  shift_stack_zero xs shifts hz hlen

theorem claim7_zero_shift_identity_witness :
    (∀ s ∈ ([((0 : ℚ), (0 : ℚ))] : List (ℚ × ℚ)), s = (0, 0)) ∧
    shift_stack (([fun _ _ _ => (1 : ℝ)] :
        List (Fin 1 → Fin 1 → Fin 1 → ℝ)).map toCFrame) [(0, 0)] "real" =
      .ok [fun _ _ _ => (1 : ℝ)] := by
  have hz : ∀ s ∈ ([((0 : ℚ), (0 : ℚ))] : List (ℚ × ℚ)), s = (0, 0) := by decide
  exact ⟨hz, claim7_zero_shift_identity [fun _ _ _ => (1 : ℝ)] [(0, 0)] hz (by simp)⟩

/-- C9, corrected.  `shift_stack` called with a shift array shorter than
the stack's frame count fails, but with Python's `IndexError` from
`shifts[frame]`, not with the spec's `ShiftError` — no `ShiftError`
exists anywhere in the source.  (A LONGER shift array is accepted, the
extra entries being ignored, so only the too-short side fails at all.) -/
theorem claim9_short_shifts_index_error {m n c : ℕ}
    (stack : List (Fin m → Fin n → Fin c → ℂ)) (shifts : List (ℚ × ℚ))
    (space : String)
    (hsp : strLower space = "real" ∨ strLower space = "fourier")
    (hlen : shifts.length < stack.length) :
    shift_stack stack shifts space = .error .indexError := by
  rcases hsp with h | h
  · simp only [shift_stack]
    rw [if_pos h]
    exact shiftLoop_short _ _ (by simpa using hlen)
  · simp only [shift_stack]
    rw [if_neg (by rw [h]; decide), if_pos h]
    exact shiftLoop_short _ _ hlen

theorem claim9_short_shifts_index_error_witness :
    (strLower "real" = "real" ∨ strLower "real" = "fourier") ∧
    ([((0 : ℚ), (0 : ℚ))] : List (ℚ × ℚ)).length <
      ([toCFrame (fun _ _ _ => 0), toCFrame (fun _ _ _ => 0)] :
        List (Fin 1 → Fin 1 → Fin 1 → ℂ)).length ∧
    shift_stack ([toCFrame (fun _ _ _ => 0), toCFrame (fun _ _ _ => 0)] :
        List (Fin 1 → Fin 1 → Fin 1 → ℂ)) [(0, 0)] "real" =
      .error .indexError := by
  refine ⟨Or.inl (by decide), by simp, ?_⟩
  exact claim9_short_shifts_index_error _ _ "real" (Or.inl (by decide)) (by simp)

/-- C9, counterexample to the claim as stated: the concrete 2-frame call
with a 1-entry shift array fails with `IndexError`, which is not the
`ShiftError` the claim names (the source defines no `ShiftError`). -/
theorem claim9_counterexample :
    shift_stack ([toCFrame (fun _ _ _ => 0), toCFrame (fun _ _ _ => 0)] :
        List (Fin 1 → Fin 1 → Fin 1 → ℂ)) [(0, 0)] "real" ≠
      .error .shiftError := by
  have h : shift_stack ([toCFrame (fun _ _ _ => 0), toCFrame (fun _ _ _ => 0)] :
      List (Fin 1 → Fin 1 → Fin 1 → ℂ)) [(0, 0)] "real" = .error .indexError := by
    simp only [shift_stack]
    rw [if_pos (by decide : strLower "real" = "real")]
    exact shiftLoop_short _ _ (by simp)
  rw [h]
  intro hcontra
  simp only [Except.error.injEq] at hcontra
  cases hcontra
end Animate
